import Mathlib

/-
Verification of the windowed data-loading core of leptos-windowing.

The definitions below are a shallow embedding of the Rust source:
  * `ItemState`, `CacheInner` and its methods follow
    leptos-windowing/src/cache.rs (reactive stores become plain values,
    `usize` becomes `Nat`, `Arc<T>` payloads become plain `T` values,
    `try_write` always succeeds in this single-threaded model, and a
    panicking operation is modelled by an `Option` result being `none`).
  * The loader normalization layer follows
    leptos-windowing/src/traits/loaders/internal_loader.rs.
  * The load driver (generation counter, stale-response dropping) follows
    src/use_load_on_demand.rs, as a step function on an explicit state.
  * The pagination hooks follow
    leptos-windowing/src/pagination/hooks/pagination.rs and controls.rs.
-/

namespace LeptosWindowing

/-- Model of `std::ops::Range<usize>`: the half-open interval `[start, stop)`.
The field `end` of the Rust type is called `stop` here because `end` is a
Lean keyword. -/
structure NatRange where
  start : Nat
  stop : Nat
deriving DecidableEq, Repr

/-- Model of `Range::contains`: membership in the half-open interval. -/
def NatRange.contains (r : NatRange) (i : Nat) : Prop :=
  r.start ≤ i ∧ i < r.stop

instance (r : NatRange) (i : Nat) : Decidable (r.contains i) :=
  inferInstanceAs (Decidable (_ ∧ _))

/-- Model of `ItemState<T>` from src/item_state.rs.  The `Arc<T>` payload of
`Loaded` is modelled by a plain value. -/
inductive ItemState (T : Type) where
  | placeholder
  | loading
  | loaded (value : T)
  | error (msg : String)
deriving DecidableEq, Repr

/-- Model of `LoadedItems<T>` from src/traits/loaders/loader.rs. -/
structure LoadedItems (T : Type) where
  items : List T
  range : NatRange
deriving DecidableEq, Repr

/-- Model of the `CacheInner<T>` struct of src/cache.rs: the ordered item
vector plus the optional total count. -/
structure CacheInner (T : Type) where
  items : List (ItemState T)
  itemCount : Option Nat
deriving DecidableEq, Repr

/-- Model of `Iterator::position(pred).unwrap_or(slice.len())` as used in
`Cache::missing_range`: index of the first element satisfying `p`, or the
length of the list when there is none. -/
def position (p : α → Bool) : List α → Nat
  | [] => 0
  | x :: xs => if p x then 0 else position p xs + 1

/-- Model of `Iterator::rposition(pred)`: index of the last element
satisfying `p`, if any. -/
def rposition (p : α → Bool) : List α → Option Nat
  | [] => none
  | x :: xs =>
    match rposition p xs with
    | some i => some (i + 1)
    | none => if p x then some 0 else none

theorem position_le_length (p : α → Bool) (xs : List α) :
    position p xs ≤ xs.length := by
  induction xs with
  | nil => simp [position]
  | cons x xs ih =>
    simp only [position, List.length_cons]
    split <;> omega

theorem position_self (p : α → Bool) (xs : List α)
    (h : position p xs < xs.length) :
    ∃ x, xs[position p xs]? = some x ∧ p x = true := by
  induction xs with
  | nil => simp at h
  | cons x xs ih =>
    simp only [position] at h ⊢
    by_cases hx : p x
    · exact ⟨x, by simp [hx], hx⟩
    · simp only [hx, if_false] at h ⊢
      obtain ⟨y, hy, hpy⟩ := ih (by simpa using h)
      exact ⟨y, by simpa using hy, hpy⟩

theorem position_min (p : α → Bool) (xs : List α) (k : Nat) (x : α)
    (hk : xs[k]? = some x) (hp : p x = true) :
    position p xs ≤ k := by
  induction xs generalizing k with
  | nil => simp at hk
  | cons y ys ih =>
    cases k with
    | zero =>
      simp only [List.getElem?_cons_zero, Option.some.injEq] at hk
      subst hk
      simp [position, hp]
    | succ k =>
      simp only [List.getElem?_cons_succ] at hk
      simp only [position]
      split
      · omega
      · exact Nat.succ_le_succ (ih k hk)

theorem not_p_of_lt_position (p : α → Bool) (xs : List α) (k : Nat) (x : α)
    (h : k < position p xs) (hk : xs[k]? = some x) : p x = false := by
  by_contra hb
  have := position_min p xs k x hk (by simpa using hb)
  omega

theorem rposition_none (p : α → Bool) (xs : List α)
    (h : rposition p xs = none) (k : Nat) (x : α)
    (hk : xs[k]? = some x) : p x = false := by
  induction xs generalizing k with
  | nil => simp at hk
  | cons y ys ih =>
    simp only [rposition] at h
    cases hr : rposition p ys with
    | some i => simp [hr] at h
    | none =>
      simp only [hr] at h
      by_cases hy : p y
      · simp [hy] at h
      · cases k with
        | zero =>
          simp only [List.getElem?_cons_zero, Option.some.injEq] at hk
          subst hk
          simpa using hy
        | succ k =>
          simp only [List.getElem?_cons_succ] at hk
          exact ih hr k hk

theorem rposition_some_lt (p : α → Bool) (xs : List α) (i : Nat)
    (h : rposition p xs = some i) : i < xs.length := by
  induction xs generalizing i with
  | nil => simp [rposition] at h
  | cons y ys ih =>
    simp only [rposition] at h
    cases hr : rposition p ys with
    | some j =>
      simp only [hr, Option.some.injEq] at h
      subst h
      have := ih j hr
      simp only [List.length_cons]
      omega
    | none =>
      simp only [hr] at h
      by_cases hy : p y
      · simp only [hy, if_true, Option.some.injEq] at h
        subst h
        simp
      · simp [hy] at h

theorem rposition_self (p : α → Bool) (xs : List α) (i : Nat)
    (h : rposition p xs = some i) :
    ∃ x, xs[i]? = some x ∧ p x = true := by
  induction xs generalizing i with
  | nil => simp [rposition] at h
  | cons y ys ih =>
    simp only [rposition] at h
    cases hr : rposition p ys with
    | some j =>
      simp only [hr, Option.some.injEq] at h
      subst h
      obtain ⟨x, hx, hpx⟩ := ih j hr
      exact ⟨x, by simpa using hx, hpx⟩
    | none =>
      simp only [hr] at h
      by_cases hy : p y
      · simp only [hy, if_true, Option.some.injEq] at h
        subst h
        exact ⟨y, by simp, hy⟩
      · simp [hy] at h

theorem rposition_max (p : α → Bool) (xs : List α) (i : Nat)
    (h : rposition p xs = some i) (k : Nat) (x : α)
    (hk : xs[k]? = some x) (hp : p x = true) : k ≤ i := by
  induction xs generalizing i k with
  | nil => simp at hk
  | cons y ys ih =>
    simp only [rposition] at h
    cases hr : rposition p ys with
    | some j =>
      simp only [hr, Option.some.injEq] at h
      subst h
      cases k with
      | zero => omega
      | succ k =>
        simp only [List.getElem?_cons_succ] at hk
        exact Nat.succ_le_succ (ih j hr k hk)
    | none =>
      simp only [hr] at h
      by_cases hy : p y
      · simp only [hy, if_true, Option.some.injEq] at h
        subst h
        cases k with
        | zero => omega
        | succ k =>
          simp only [List.getElem?_cons_succ] at hk
          have := rposition_none p ys hr k x hk
          rw [this] at hp
          exact absurd hp (by simp)
      · simp [hy] at h

theorem rposition_isSome (p : α → Bool) (xs : List α) (k : Nat) (x : α)
    (hk : xs[k]? = some x) (hp : p x = true) :
    ∃ i, rposition p xs = some i := by
  cases h : rposition p xs with
  | some i => exact ⟨i, rfl⟩
  | none =>
    have := rposition_none p xs h k x hk
    rw [this] at hp
    exact absurd hp (by simp)

/-- Model of `Vec::resize(len, ItemState::Placeholder)` as used by
`Cache::resize` and `Cache::grow`: truncate or pad with placeholders to
exactly `len` entries. -/
def resizeItems (xs : List (ItemState T)) (len : Nat) : List (ItemState T) :=
  if xs.length < len then xs ++ List.replicate (len - xs.length) .placeholder
  else xs.take len

/-- Model of `Cache::resize` from src/cache.rs. -/
def CacheInner.resize (c : CacheInner T) (len : Nat) : CacheInner T :=
  { c with items := resizeItems c.items len }

/-- Model of `Cache::grow` from src/cache.rs: resize only when the current
length is smaller, so the vector never shrinks. -/
def CacheInner.grow (c : CacheInner T) (len : Nat) : CacheInner T :=
  if c.items.length < len then c.resize len else c

/-- Model of `Cache::clear` from src/cache.rs: every entry becomes a
placeholder (`fill`), the item count becomes `None`, the length is kept. -/
def CacheInner.clear (c : CacheInner T) : CacheInner T :=
  { items := c.items.map (fun _ => .placeholder), itemCount := none }

/-- Model of `Cache::write_loading` from src/cache.rs: grow to `range.end`
if needed, then set each entry of the range to `Loading`.  In this
single-threaded model every `try_write` succeeds. -/
def CacheInner.write_loading (c : CacheInner T) (r : NatRange) : CacheInner T :=
  let items := if r.stop > c.items.length then resizeItems c.items r.stop else c.items
  { c with
    items := items.mapIdx (fun i x =>
      if r.start ≤ i ∧ i < r.start + (r.stop - r.start) then .loading else x) }

/-- Model of the `skip(range.start).zip(items)` overwrite loop in the `Ok`
branch of `Cache::write_loaded`: the rows of `xs` are overwritten by
`Loaded` values from `ys` until either list runs out. -/
def overlayLoaded : List (ItemState T) → List T → List (ItemState T)
  | [], _ => []
  | xs, [] => xs
  | _ :: xs, y :: ys => .loaded y :: overlayLoaded xs ys

/-- Model of `Cache::write_loaded` from src/cache.rs.  On `Ok` the cache is
grown to `range.end` and rows `range.start + i` are overwritten with the
loaded values.  On `Err` the source computes the scoped range
`requested.start..min(requested.end, len)` and returns early when it is
empty, but the loop that follows iterates over ALL rows of the cache, so
every entry becomes `Error`: this model reproduces that behavior
faithfully. -/
def CacheInner.write_loaded (c : CacheInner T)
    (loadingResult : Except String (LoadedItems T))
    (requestedLoadRange : NatRange) : CacheInner T :=
  match loadingResult with
  | .ok li =>
    let items :=
      if li.range.stop > c.items.length then resizeItems c.items li.range.stop
      else c.items
    { c with
      items := items.take li.range.start ++
        overlayLoaded (items.drop li.range.start) li.items }
  | .error e =>
    let stop := min requestedLoadRange.stop c.items.length
    if stop ≤ requestedLoadRange.start then c
    else { c with items := c.items.map (fun _ => .error e) }

/-- Model of the slice `items[range.start .. min(len, range.end)]` taken by
`Cache::missing_range`. -/
def CacheInner.sliceOf (c : CacheInner T) (r : NatRange) : List (ItemState T) :=
  (c.items.drop r.start).take (min c.items.length r.stop - r.start)

/-- Predicate `matches!(item, ItemState::Placeholder)` used by
`Cache::missing_range`. -/
def isPlaceholder : ItemState T → Bool
  | .placeholder => true
  | _ => false

/-- Model of the clamping `end.min(item_count)` done when the item count is
known.  The final `min(item_count.unwrap_or(usize::MAX))` of the source is
the same clamp: with an unknown count it is the identity (no `Nat` reachable
from a Rust `usize` exceeds `usize::MAX`). -/
def CacheInner.clampCount (c : CacheInner T) (x : Nat) : Nat :=
  match c.itemCount with
  | some n => min x n
  | none => x

/-- Model of the `end` computation of `Cache::missing_range`: the window end
when the window reaches past the vector, otherwise one past the last
placeholder of the slice (`rposition`, with the early `?` return modelled
by `none`). -/
def CacheInner.missingEnd0 (c : CacheInner T) (rangeToLoad : NatRange) :
    Option Nat :=
  if c.items.length ≤ rangeToLoad.stop then some rangeToLoad.stop
  else (rposition isPlaceholder (c.sliceOf rangeToLoad)).map
    (· + rangeToLoad.start + 1)

/-- Model of `Cache::missing_range` from src/cache.rs, a faithful
transcription of its control flow. -/
def CacheInner.missing_range (c : CacheInner T) (rangeToLoad : NatRange) :
    Option NatRange :=
  if rangeToLoad.stop ≤ rangeToLoad.start then none
  else if c.items.length ≤ rangeToLoad.start then some rangeToLoad
  else
    let s := position isPlaceholder (c.sliceOf rangeToLoad) + rangeToLoad.start
    match c.missingEnd0 rangeToLoad with
    | none => none
    | some e0 =>
      let e1 := c.clampCount e0
      if e1 ≤ s then none
      else some ⟨s, c.clampCount (max e1 rangeToLoad.stop)⟩

/-- Model of `Cache::update_item` from src/cache.rs.  Writing through the
per-index subfield of the reactive store panics when the index is out of
range of the item vector; a panic is modelled by `none`. -/
def CacheInner.update_item (c : CacheInner T) (index : Nat) (new : T) :
    Option (CacheInner T) :=
  if index < c.items.length then
    some { c with items := c.items.set index (.loaded new) }
  else none

/-- Model of `Cache::remove_item` from src/cache.rs.  `Vec::remove` panics
when the index is out of range, and the `len - 1` item-count update
overflows (panicking in debug builds) when the known count is zero; both
panics are modelled by `none`. -/
def CacheInner.remove_item (c : CacheInner T) (index : Nat) :
    Option (CacheInner T) :=
  if index < c.items.length then
    match c.itemCount with
    | some 0 => none
    | some (n + 1) => some { items := c.items.eraseIdx index, itemCount := some n }
    | none => some { items := c.items.eraseIdx index, itemCount := none }
  else none

/-- Model of `Cache::insert_item` from src/cache.rs.  `Vec::insert` panics
when the index is greater than the length; a panic is modelled by `none`. -/
def CacheInner.insert_item (c : CacheInner T) (index : Nat) (new : T) :
    Option (CacheInner T) :=
  if index ≤ c.items.length then
    some { items := c.items.insertIdx index (.loaded new),
           itemCount := c.itemCount.map (· + 1) }
  else none

/-- Model of `CacheController<T>` from src/cache.rs: a stored optional
cache, `none` while no component has initialized the connection. -/
def CacheController (T : Type) : Type := Option (CacheInner T)

/-- Model of `CacheController::update_item`: on an uninitialized controller
it logs and does nothing; otherwise it delegates to `Cache::update_item`.
The outer `Option` models panics (`none` = panic), the inner value is the
controller state afterwards. -/
def CacheController.update_item (ctrl : CacheController T) (index : Nat)
    (new : T) : Option (CacheController T) :=
  match ctrl with
  | none => some none
  | some c => (c.update_item index new).map some

/-- Model of `CacheController::remove_item`: on an uninitialized controller
it logs and does nothing; otherwise it delegates to `Cache::remove_item`. -/
def CacheController.remove_item (ctrl : CacheController T) (index : Nat) :
    Option (CacheController T) :=
  match ctrl with
  | none => some none
  | some c => (c.remove_item index).map some

/-- Model of `CacheController::insert_item`: on an uninitialized controller
it logs and does nothing; otherwise it delegates to `Cache::insert_item`. -/
def CacheController.insert_item (ctrl : CacheController T) (index : Nat)
    (new : T) : Option (CacheController T) :=
  match ctrl with
  | none => some none
  | some c => (c.insert_item index new).map some

/-- Model of `usize::div_ceil` used by `InternalLoader::load_items`. -/
def divCeil (a b : Nat) : Nat := (a + b - 1) / b

/-- Model of the chunk-alignment step of `InternalLoader::load_items` from
src/traits/loaders/internal_loader.rs: with a chunk size the requested
range is rounded outward to chunk boundaries, without one it is passed on
unchanged. -/
def correctedRange (chunkSize : Option Nat) (r : NatRange) : NatRange :=
  match chunkSize with
  | some c => ⟨r.start / c * c, divCeil r.stop c * c⟩
  | none => r

/-- Model of `InternalLoader::load_items`: compute the corrected range and
hand it to `load_items_inner` (here an arbitrary function `inner`). -/
def load_items (chunkSize : Option Nat) (inner : NatRange → α) (r : NatRange) : α :=
  inner (correctedRange chunkSize r)

/-- Model of `load_items_inner` of the `PaginatedLoaderMarker`
implementation in src/traits/loaders/internal_loader.rs: call
`load_page(start / PAGE_ITEM_COUNT)` and report the actual range
`start..start + items.len()`. -/
def paginatedLoadItemsInner (loadPage : Nat → Q → Except E (List T))
    (pageItemCount : Nat) (range : NatRange) (query : Q) :
    Except E (LoadedItems T) :=
  (loadPage (range.start / pageItemCount) query).map fun items =>
    { items := items, range := ⟨range.start, range.start + items.length⟩ }

/-- State of the load driver `use_load_on_demand` from
src/use_load_on_demand.rs: the cache store, the published item-count
result and the reload counter (the generation). -/
structure DriverState (T E : Type) where
  cache : CacheInner T
  itemCountResult : Except E (Option Nat)
  reloadCounter : Nat

/-- Model of the local closure `set_item_count` of `use_load_on_demand`:
write `count.ok().flatten()` into the cache's item-count field and publish
the full result. -/
def DriverState.setItemCount (s : DriverState T E)
    (count : Except E (Option Nat)) : DriverState T E :=
  { s with
    cache := { s.cache with
      itemCount := match count with | .ok c => c | .error _ => none }
    itemCountResult := count }

/-- Events of the load driver.  A completion event carries the reload
counter value that the spawned task captured before awaiting the loader
(`latest_reload_count` in the source). -/
inductive DriverEvent (T E : Type) where
  | queryChange
  | completeCountLoad (captured : Nat) (count : Except E (Option Nat))
  | completeItemLoad (captured : Nat) (missing : NatRange)
      (result : Except E (LoadedItems T))

/-- Step function of the load driver `use_load_on_demand`, one case per
event:
  * a query change clears the cache and bumps the reload counter
    (`wrapping_add(1)`; the wrap cannot matter for the equality checks
    modelled here, so plain `+ 1` is used);
  * a count-load completion applies `set_item_count` only when the captured
    counter still equals the current one;
  * an item-load completion, again only when the captured counter still
    equals the current one, first updates the item count when the loader
    signalled end-of-data (`range.end < missing.end`), then writes the
    stringified result into the cache for the requested missing range.
The function `fmt` models the `format!` debug stringification of the
loader error type. -/
def driverStep (fmt : E → String) (s : DriverState T E) :
    DriverEvent T E → DriverState T E
  | .queryChange =>
    { s with cache := s.cache.clear, reloadCounter := s.reloadCounter + 1 }
  | .completeCountLoad captured count =>
    if captured = s.reloadCounter then s.setItemCount count else s
  | .completeItemLoad captured missing result =>
    if captured = s.reloadCounter then
      let s1 :=
        match result with
        | .ok li =>
          if li.range.stop < missing.stop then
            s.setItemCount (.ok (some li.range.stop))
          else s
        | .error _ => s
      { s1 with
        cache := s1.cache.write_loaded
          (match result with
           | .ok li => .ok li
           | .error e => .error (fmt e)) missing }
    else s

/-- Model of the `range_to_load` memo of `use_pagination` from
src/pagination/hooks/pagination.rs: start index
`current_page.saturating_sub(overscan) * items_per_page`, end index
`(current_page + overscan) * items_per_page`, the end clamped to the item
count when it is known. -/
def rangeToLoad (currentPage overscanPageCount itemCountPerPage : Nat)
    (itemCount : Option Nat) : NatRange :=
  let startIndex := (currentPage - overscanPageCount) * itemCountPerPage
  let endIndex := (currentPage + overscanPageCount) * itemCountPerPage
  let endIndex :=
    match itemCount with
    | some n => min endIndex n
    | none => endIndex
  ⟨startIndex, endIndex⟩

/-- Model of `(start..end).collect::<Vec<usize>>()`. -/
def rangeList (s e : Nat) : List Nat := (List.range (e - s)).map (s + ·)

/-- Output of `use_pagination_controls` from
src/pagination/hooks/controls.rs (the reactive wrappers dropped). -/
structure PaginationControls where
  startRange : List Nat
  endRange : List Nat
  currentRange : List Nat
  showSeparatorBefore : Bool
  showSeparatorAfter : Bool
deriving DecidableEq, Repr

/-- Model of `use_pagination_controls` from
src/pagination/hooks/controls.rs, a faithful transcription of the memo and
signal bodies as a pure function of the inputs.  Saturating subtractions
become `Nat` subtraction; the one unchecked subtraction
(`current_page - margin_page_count` in the current-range memo) is only
reached when `current_page > margin_page_count`, so `Nat` subtraction is
also faithful there. -/
def usePaginationControls (currentPage : Nat) (pageCountOpt : Option Nat)
    (displayPageCount marginPageCount : Nat) : PaginationControls :=
  let pageCount := pageCountOpt.getD 0
  let additionalPageCount := displayPageCount / 2
  let currentRangeStart := currentPage - additionalPageCount
  let currentRangeEnd := currentPage + additionalPageCount
  let mergeCurrentWithStart := currentRangeStart ≤ marginPageCount
  let mergeCurrentWithEnd := currentRangeEnd + 1 ≥ pageCount - marginPageCount
  let startRangeEnd :=
    if mergeCurrentWithStart then currentRangeEnd else marginPageCount + 1
  let endRangeStart :=
    if mergeCurrentWithEnd then currentRangeStart + 1
    else pageCount - (marginPageCount + 1)
  let mergeAll := startRangeEnd + 1 ≥ endRangeStart
  { startRange := rangeList 0 (if mergeAll then pageCount else startRangeEnd)
    endRange := if mergeAll then [] else rangeList endRangeStart pageCount
    currentRange :=
      if mergeCurrentWithStart ∨ mergeCurrentWithEnd ∨ mergeAll then []
      else rangeList (currentPage - marginPageCount)
        (currentPage + marginPageCount + 1)
    showSeparatorBefore := !(mergeCurrentWithStart || mergeAll)
    showSeparatorAfter := !(mergeCurrentWithEnd || mergeAll) }

/-
Validation of the `missing_range` model against the unit test
`test_missing_range` of src/cache.rs, step by step.
-/

example :
    (CacheInner.mk ([] : List (ItemState Nat)) none).missing_range ⟨0, 10⟩ =
      some ⟨0, 10⟩ := by decide

example :
    (CacheInner.mk ([] : List (ItemState Nat)) none).missing_range ⟨5, 10⟩ =
      some ⟨5, 10⟩ := by decide

/-- Cache state of the source's unit test after
`write_loaded(Ok({items: 0..5, range: 0..5}), 0..5)`. -/
def testCacheA : CacheInner Nat :=
  (CacheInner.mk [] none).write_loaded
    (.ok { items := [0, 1, 2, 3, 4], range := ⟨0, 5⟩ }) ⟨0, 5⟩

example : testCacheA.missing_range ⟨0, 10⟩ = some ⟨5, 10⟩ := by decide
example : testCacheA.missing_range ⟨5, 10⟩ = some ⟨5, 10⟩ := by decide
example : testCacheA.missing_range ⟨5, 20⟩ = some ⟨5, 20⟩ := by decide

/-- Cache state of the source's unit test after additionally marking
`5..9` as loading. -/
def testCacheB : CacheInner Nat := testCacheA.write_loading ⟨5, 9⟩

example : testCacheB.missing_range ⟨0, 10⟩ = some ⟨9, 10⟩ := by decide
example : testCacheB.missing_range ⟨5, 10⟩ = some ⟨9, 10⟩ := by decide
example : testCacheB.missing_range ⟨5, 20⟩ = some ⟨9, 20⟩ := by decide

/-- Index `i` is a gap of the window `W` in cache `c`: it lies in `W` and
its entry is either not allocated yet (beyond the vector length) or still a
placeholder. -/
def CacheInner.IsGap (c : CacheInner T) (W : NatRange) (i : Nat) : Prop :=
  W.contains i ∧ (c.items.length ≤ i ∨ c.items[i]? = some .placeholder)

/-- Index `i` is missing for the window `W` in cache `c`: it is a gap and it
lies below the item count whenever that count is known. -/
def CacheInner.IsMissing (c : CacheInner T) (W : NatRange) (i : Nat) : Prop :=
  c.IsGap W i ∧ ∀ n, c.itemCount = some n → i < n

theorem isPlaceholder_iff (x : ItemState T) :
    isPlaceholder x = true ↔ x = .placeholder := by
  cases x <;> simp [isPlaceholder]

theorem sliceOf_length (c : CacheInner T) (W : NatRange) :
    (c.sliceOf W).length = min c.items.length W.stop - W.start := by
  simp only [CacheInner.sliceOf, List.length_take, List.length_drop]
  omega

theorem sliceOf_getElem (c : CacheInner T) (W : NatRange) (k : Nat) :
    (c.sliceOf W)[k]? =
      if k < min c.items.length W.stop - W.start then c.items[W.start + k]?
      else none := by
  simp only [CacheInner.sliceOf, List.getElem?_take, List.getElem?_drop]

/-- Every gap of `W` lies at or above the absolute position of the first
placeholder of the slice (with `position = slice.length` when there is
none, in which case every gap lies at or beyond the end of the slice). -/
theorem isGap_lower (c : CacheInner T) (W : NatRange) (i : Nat)
    (hg : c.IsGap W i) :
    W.start + position isPlaceholder (c.sliceOf W) ≤ i := by
  obtain ⟨⟨h1, h2⟩, hg⟩ := hg
  have hm := sliceOf_length c W
  have hpos := position_le_length isPlaceholder (c.sliceOf W)
  rcases hg with hlen | hph
  · omega
  · have hilen : i < c.items.length := by
      by_contra hc
      rw [List.getElem?_eq_none (by omega)] at hph
      exact absurd hph (by simp)
    have hk : i - W.start < min c.items.length W.stop - W.start := by omega
    have hsl : (c.sliceOf W)[i - W.start]? = some ItemState.placeholder := by
      rw [sliceOf_getElem, if_pos hk, Nat.add_sub_cancel' h1]
      exact hph
    have := position_min isPlaceholder (c.sliceOf W) (i - W.start) _ hsl
      (by simp [isPlaceholder])
    omega

/-- When the slice contains a placeholder, its first placeholder is a gap. -/
theorem isGap_position (c : CacheInner T) (W : NatRange)
    (hS : position isPlaceholder (c.sliceOf W) < (c.sliceOf W).length) :
    c.IsGap W (W.start + position isPlaceholder (c.sliceOf W)) := by
  have hm := sliceOf_length c W
  obtain ⟨x, hx, hpx⟩ := position_self isPlaceholder (c.sliceOf W) hS
  rw [isPlaceholder_iff] at hpx
  subst hpx
  rw [sliceOf_getElem, if_pos (by omega)] at hx
  refine ⟨⟨by omega, by omega⟩, Or.inr hx⟩

/-- When the window extends beyond the vector, the vector length itself is a
gap. -/
theorem isGap_length (c : CacheInner T) (W : NatRange)
    (ha : W.start ≤ c.items.length) (hb : c.items.length < W.stop) :
    c.IsGap W c.items.length :=
  ⟨⟨ha, hb⟩, Or.inl le_rfl⟩

/-- No allocated entry strictly below the first placeholder of the slice is
a placeholder. -/
theorem no_placeholder_below_position (c : CacheInner T) (W : NatRange)
    (i : Nat) (h1 : W.start ≤ i)
    (h2 : i < W.start + position isPlaceholder (c.sliceOf W))
    (h3 : i < min c.items.length W.stop) :
    c.items[i]? ≠ some .placeholder := by
  intro hph
  have hm := sliceOf_length c W
  have hk : i - W.start < min c.items.length W.stop - W.start := by omega
  have hsl : (c.sliceOf W)[i - W.start]? = some ItemState.placeholder := by
    rw [sliceOf_getElem, if_pos hk, Nat.add_sub_cancel' h1]
    exact hph
  have := position_min isPlaceholder (c.sliceOf W) (i - W.start) _ hsl
    (by simp [isPlaceholder])
  omega

/-- When `rposition` finds no placeholder in the slice, no allocated entry
of the window is a placeholder. -/
theorem no_placeholder_of_rposition_none (c : CacheInner T) (W : NatRange)
    (hE : rposition isPlaceholder (c.sliceOf W) = none) (i : Nat)
    (h1 : W.start ≤ i) (h3 : i < min c.items.length W.stop) :
    c.items[i]? ≠ some .placeholder := by
  intro hph
  have hm := sliceOf_length c W
  have hk : i - W.start < min c.items.length W.stop - W.start := by omega
  have hsl : (c.sliceOf W)[i - W.start]? = some ItemState.placeholder := by
    rw [sliceOf_getElem, if_pos hk, Nat.add_sub_cancel' h1]
    exact hph
  have := rposition_none isPlaceholder (c.sliceOf W) hE (i - W.start) _ hsl
  simp [isPlaceholder] at this

/-- The index reported by `rposition` on the slice is an allocated
placeholder inside the window. -/
theorem rposition_placeholder_abs (c : CacheInner T) (W : NatRange) (E : Nat)
    (hE : rposition isPlaceholder (c.sliceOf W) = some E) :
    c.items[W.start + E]? = some .placeholder ∧
      W.start + E < min c.items.length W.stop := by
  have hm := sliceOf_length c W
  have hlt := rposition_some_lt isPlaceholder (c.sliceOf W) E hE
  obtain ⟨x, hx, hpx⟩ := rposition_self isPlaceholder (c.sliceOf W) E hE
  rw [isPlaceholder_iff] at hpx
  subst hpx
  rw [sliceOf_getElem, if_pos (by omega)] at hx
  exact ⟨hx, by omega⟩

/-- Unfolding of `missing_range` in its main branch. -/
theorem missing_range_main (c : CacheInner T) (W : NatRange)
    (hba : W.start < W.stop) (hla : W.start < c.items.length) :
    c.missing_range W =
      match c.missingEnd0 W with
      | none => none
      | some e0 =>
        if c.clampCount e0 ≤ position isPlaceholder (c.sliceOf W) + W.start
        then none
        else some ⟨position isPlaceholder (c.sliceOf W) + W.start,
          c.clampCount (max (c.clampCount e0) W.stop)⟩ := by
  unfold CacheInner.missing_range
  rw [if_neg (by omega), if_neg (by omega)]

/-- Soundness of the `None` answer: when `missing_range` reports nothing to
load, no index of the window is missing. -/
theorem missing_range_eq_none (c : CacheInner T) (W : NatRange)
    (h : c.missing_range W = none) (i : Nat) : ¬ c.IsMissing W i := by
  intro hmiss
  obtain ⟨hgap, hcnt⟩ := hmiss
  obtain ⟨⟨hi1, hi2⟩, hgapor⟩ := hgap
  have hlow := isGap_lower c W i ⟨⟨hi1, hi2⟩, hgapor⟩
  by_cases hba : W.stop ≤ W.start
  · omega
  by_cases hla : c.items.length ≤ W.start
  · unfold CacheInner.missing_range at h
    rw [if_neg hba, if_pos hla] at h
    exact absurd h (by simp)
  rw [missing_range_main c W (by omega) (by omega)] at h
  cases h0 : c.missingEnd0 W with
  | none =>
    unfold CacheInner.missingEnd0 at h0
    by_cases hlb : c.items.length ≤ W.stop
    · rw [if_pos hlb] at h0
      exact absurd h0 (by simp)
    rw [if_neg hlb] at h0
    cases hr : rposition isPlaceholder (c.sliceOf W) with
    | some E => rw [hr] at h0; exact absurd h0 (by simp)
    | none =>
      rcases hgapor with hlen | hph
      · omega
      · exact no_placeholder_of_rposition_none c W hr i hi1 (by omega) hph
  | some e0 =>
    rw [h0] at h
    dsimp only at h
    by_cases hcl :
        c.clampCount e0 ≤ position isPlaceholder (c.sliceOf W) + W.start
    swap
    · rw [if_neg hcl] at h
      exact absurd h (by simp)
    unfold CacheInner.missingEnd0 at h0
    by_cases hlb : c.items.length ≤ W.stop
    · rw [if_pos hlb] at h0
      injection h0 with h0
      subst h0
      cases hic : c.itemCount with
      | none => simp only [CacheInner.clampCount, hic] at hcl; omega
      | some n =>
        have := hcnt n hic
        simp only [CacheInner.clampCount, hic] at hcl
        omega
    · rw [if_neg hlb] at h0
      cases hr : rposition isPlaceholder (c.sliceOf W) with
      | none => rw [hr] at h0; exact absurd h0 (by simp)
      | some E =>
        rw [hr] at h0
        injection h0 with h0
        subst h0
        obtain ⟨hphE, hEin⟩ := rposition_placeholder_abs c W E hr
        have hSE := isGap_lower c W (W.start + E)
          ⟨⟨by omega, by omega⟩, Or.inr hphE⟩
        cases hic : c.itemCount with
        | none => simp only [CacheInner.clampCount, hic] at hcl; omega
        | some n =>
          have := hcnt n hic
          simp only [CacheInner.clampCount, hic] at hcl
          omega

/-- Characterization of a `Some` answer of `missing_range`: the returned
range is non-empty, contains every missing index of the window, starts at
the first gap of the window, ends no later than the window end or one past
a gap, and — whenever the window start lies inside the vector — is clamped
by the known item count. -/
theorem missing_range_eq_some (c : CacheInner T) (W R : NatRange)
    (h : c.missing_range W = some R) :
    R.start < R.stop ∧
    (∀ i, c.IsMissing W i → R.contains i) ∧
    c.IsGap W R.start ∧
    (∀ i, c.IsGap W i → R.start ≤ i) ∧
    (R.stop ≤ W.stop ∨ ∃ i, c.IsGap W i ∧ R.stop ≤ i + 1) ∧
    (∀ n, c.itemCount = some n → W.start < c.items.length → R.stop ≤ n) := by
  by_cases hba : W.stop ≤ W.start
  · unfold CacheInner.missing_range at h
    rw [if_pos hba] at h
    exact absurd h (by simp)
  by_cases hla : c.items.length ≤ W.start
  · unfold CacheInner.missing_range at h
    rw [if_neg hba, if_pos hla] at h
    injection h with h
    subst h
    refine ⟨by omega, fun i hi => hi.1.1, ?_, fun i hi => hi.1.1, Or.inl le_rfl,
      fun n hn hlen => absurd hlen (by omega)⟩
    exact ⟨⟨le_rfl, by omega⟩, Or.inl (by omega)⟩
  rw [missing_range_main c W (by omega) (by omega)] at h
  have hm := sliceOf_length c W
  have hSm := position_le_length isPlaceholder (c.sliceOf W)
  cases h0 : c.missingEnd0 W with
  | none => rw [h0] at h; exact absurd h (by simp)
  | some e0 =>
    rw [h0] at h
    dsimp only at h
    by_cases hcl :
        c.clampCount e0 ≤ position isPlaceholder (c.sliceOf W) + W.start
    · rw [if_pos hcl] at h
      exact absurd h (by simp)
    rw [if_neg hcl] at h
    injection h with h
    subst h
    simp only
    -- abbreviations
    have hgaplow : ∀ i, c.IsGap W i →
        position isPlaceholder (c.sliceOf W) + W.start ≤ i := by
      intro i hi
      have := isGap_lower c W i hi
      omega
    have hstartgap : c.IsGap W
        (position isPlaceholder (c.sliceOf W) + W.start) := by
      by_cases hS : position isPlaceholder (c.sliceOf W) < (c.sliceOf W).length
      · have := isGap_position c W hS
        rwa [Nat.add_comm W.start] at this
      -- no placeholder in the slice: the branch forces the window past the
      -- vector end, and the vector length is the first gap
      unfold CacheInner.missingEnd0 at h0
      by_cases hlb : c.items.length ≤ W.stop
      · rw [if_pos hlb] at h0
        injection h0 with h0
        subst h0
        have hpose : position isPlaceholder (c.sliceOf W) + W.start =
            c.items.length := by
          cases hic : c.itemCount with
          | none => simp only [CacheInner.clampCount, hic] at hcl; omega
          | some n => simp only [CacheInner.clampCount, hic] at hcl; omega
        rw [hpose]
        refine isGap_length c W (by omega) ?_
        cases hic : c.itemCount with
        | none => simp only [CacheInner.clampCount, hic] at hcl; omega
        | some n => simp only [CacheInner.clampCount, hic] at hcl; omega
      · rw [if_neg hlb] at h0
        cases hr : rposition isPlaceholder (c.sliceOf W) with
        | none => rw [hr] at h0; exact absurd h0 (by simp)
        | some E =>
          rw [hr] at h0
          injection h0 with h0
          subst h0
          obtain ⟨hphE, hEin⟩ := rposition_placeholder_abs c W E hr
          have hSE := isGap_lower c W (W.start + E)
            ⟨⟨by omega, by omega⟩, Or.inr hphE⟩
          cases hic : c.itemCount with
          | none => simp only [CacheInner.clampCount, hic] at hcl; omega
          | some n =>
            simp only [CacheInner.clampCount, hic] at hcl
            omega
    refine ⟨?_, ?_, hstartgap, hgaplow, ?_, ?_⟩
    · -- non-emptiness
      cases hic : c.itemCount with
      | none =>
        simp only [CacheInner.clampCount, hic] at hcl ⊢
        omega
      | some n =>
        simp only [CacheInner.clampCount, hic] at hcl ⊢
        omega
    · -- containment of missing indices
      intro i hi
      obtain ⟨hgap, hcnt⟩ := hi
      obtain ⟨⟨hi1, hi2⟩, hor⟩ := hgap
      refine ⟨hgaplow i ⟨⟨hi1, hi2⟩, hor⟩, ?_⟩
      cases hic : c.itemCount with
      | none =>
        simp only [CacheInner.clampCount, hic]
        omega
      | some n =>
        have := hcnt n hic
        simp only [CacheInner.clampCount, hic]
        omega
    · -- upper bound on the stop
      unfold CacheInner.missingEnd0 at h0
      by_cases hlb : c.items.length ≤ W.stop
      · rw [if_pos hlb] at h0
        injection h0 with h0
        subst h0
        left
        cases hic : c.itemCount with
        | none => simp only [CacheInner.clampCount, hic]; omega
        | some n => simp only [CacheInner.clampCount, hic]; omega
      · rw [if_neg hlb] at h0
        cases hr : rposition isPlaceholder (c.sliceOf W) with
        | none => rw [hr] at h0; exact absurd h0 (by simp)
        | some E =>
          rw [hr] at h0
          injection h0 with h0
          subst h0
          obtain ⟨hphE, hEin⟩ := rposition_placeholder_abs c W E hr
          by_cases hEb : E + W.start + 1 ≤ W.stop
          · left
            cases hic : c.itemCount with
            | none => simp only [CacheInner.clampCount, hic]; omega
            | some n => simp only [CacheInner.clampCount, hic]; omega
          · right
            refine ⟨W.start + E, ⟨⟨by omega, by omega⟩, Or.inr hphE⟩, ?_⟩
            cases hic : c.itemCount with
            | none => simp only [CacheInner.clampCount, hic]; omega
            | some n => simp only [CacheInner.clampCount, hic]; omega
    · -- clamping by the item count in the main branch
      intro n hn _
      simp only [CacheInner.clampCount, hn]
      omega

theorem resizeItems_length (xs : List (ItemState T)) (n : Nat) :
    (resizeItems xs n).length = n := by
  unfold resizeItems
  split
  · simp only [List.length_append, List.length_replicate]
    omega
  · simp only [List.length_take]
    omega

theorem resizeItems_getElem_lt (xs : List (ItemState T)) (n i : Nat)
    (hlen : xs.length ≤ n) (hi : i < xs.length) :
    (resizeItems xs n)[i]? = xs[i]? := by
  unfold resizeItems
  split
  · rw [List.getElem?_append]
    simp [hi]
  · have : xs.length = n := by omega
    subst this
    simp

theorem overlayLoaded_length (xs : List (ItemState T)) (ys : List T) :
    (overlayLoaded xs ys).length = xs.length := by
  induction xs generalizing ys with
  | nil => cases ys <;> simp [overlayLoaded]
  | cons x xs ih =>
    cases ys with
    | nil => simp [overlayLoaded]
    | cons y ys => simp [overlayLoaded, ih]

theorem overlayLoaded_getElem_lt (xs : List (ItemState T)) (ys : List T)
    (i : Nat) (hiy : i < ys.length) (hix : i < xs.length) (y : T)
    (hy : ys[i]? = some y) :
    (overlayLoaded xs ys)[i]? = some (.loaded y) := by
  induction xs generalizing ys i with
  | nil => simp at hix
  | cons x xs ih =>
    cases ys with
    | nil => simp at hiy
    | cons z zs =>
      cases i with
      | zero =>
        simp only [List.getElem?_cons_zero, Option.some.injEq] at hy
        subst hy
        simp [overlayLoaded]
      | succ i =>
        simp only [List.getElem?_cons_succ] at hy ⊢
        simp only [overlayLoaded, List.getElem?_cons_succ]
        exact ih zs i (by simpa using hiy) (by simpa using hix) hy

theorem overlayLoaded_getElem_ge (xs : List (ItemState T)) (ys : List T)
    (i : Nat) (hiy : ys.length ≤ i) :
    (overlayLoaded xs ys)[i]? = xs[i]? := by
  induction xs generalizing ys i with
  | nil => cases ys <;> simp [overlayLoaded]
  | cons x xs ih =>
    cases ys with
    | nil => simp [overlayLoaded]
    | cons z zs =>
      cases i with
      | zero => simp at hiy
      | succ i =>
        simp only [overlayLoaded, List.getElem?_cons_succ]
        exact ih zs i (by simpa using hiy)

/-- The list that `write_loaded` grows before overwriting. -/
def grownItems (c : CacheInner T) (stop : Nat) : List (ItemState T) :=
  if stop > c.items.length then resizeItems c.items stop else c.items

theorem grownItems_length (c : CacheInner T) (stop : Nat) :
    (grownItems c stop).length = max c.items.length stop := by
  unfold grownItems
  split
  · rw [resizeItems_length]
    omega
  · omega

theorem write_loaded_ok_items (c : CacheInner T) (li : LoadedItems T)
    (req : NatRange) :
    (c.write_loaded (.ok li) req).items =
      (grownItems c li.range.stop).take li.range.start ++
        overlayLoaded ((grownItems c li.range.stop).drop li.range.start)
          li.items := rfl

theorem write_loaded_itemCount (c : CacheInner T)
    (res : Except String (LoadedItems T)) (req : NatRange) :
    (c.write_loaded res req).itemCount = c.itemCount := by
  cases res with
  | ok li => rfl
  | error e =>
    simp only [CacheInner.write_loaded]
    split <;> rfl

theorem write_loaded_ok_length (c : CacheInner T) (li : LoadedItems T)
    (req : NatRange) :
    (c.write_loaded (.ok li) req).items.length =
      max c.items.length li.range.stop := by
  rw [write_loaded_ok_items, List.length_append, List.length_take,
    overlayLoaded_length, List.length_drop, grownItems_length]
  omega

/-- Reading back a value written by a successful `write_loaded`. -/
theorem write_loaded_ok_getElem (c : CacheInner T) (li : LoadedItems T)
    (req : NatRange) (i : Nat) (hi : i < li.items.length)
    (hfit : li.range.start + li.items.length ≤
      max c.items.length li.range.stop) (y : T)
    (hy : li.items[i]? = some y) :
    (c.write_loaded (.ok li) req).items[li.range.start + i]? =
      some (.loaded y) := by
  rw [write_loaded_ok_items, List.getElem?_append]
  have hg := grownItems_length c li.range.stop
  have hstart : li.range.start ≤ (grownItems c li.range.stop).length := by
    omega
  rw [List.length_take, if_neg (by omega)]
  have htl : min li.range.start (grownItems c li.range.stop).length =
      li.range.start := by omega
  rw [htl, Nat.add_sub_cancel_left]
  exact overlayLoaded_getElem_lt _ li.items i hi
    (by rw [List.length_drop]; omega) y hy

theorem divCeil_mul_ge (a c : Nat) (hc : 0 < c) : a ≤ divCeil a c * c := by
  unfold divCeil
  have h1 := Nat.div_add_mod (a + c - 1) c
  have h2 := Nat.mod_lt (a + c - 1) hc
  rw [Nat.mul_comm]
  omega

theorem divCeil_mul_lt (a c : Nat) (hc : 0 < c) : divCeil a c * c < a + c := by
  unfold divCeil
  have h1 := Nat.div_add_mod (a + c - 1) c
  have h2 := Nat.mod_lt (a + c - 1) hc
  rw [Nat.mul_comm]
  omega

theorem div_mul_add_lt (a c : Nat) (hc : 0 < c) : a < a / c * c + c := by
  have h1 := Nat.div_add_mod a c
  have h2 := Nat.mod_lt a hc
  rw [Nat.mul_comm]
  omega

/-- C1: for any driver state (hence under any interleaving of query changes
and load completions), a completed item-load or count-load whose captured
generation differs from the current generation at completion time performs
no mutation at all — the whole driver state, in particular the cache and
the item count, is unchanged; the stale response is dropped. -/
theorem c1_stale_completion_dropped (fmt : E → String) (s : DriverState T E)
    (captured : Nat) (missing : NatRange)
    (result : Except E (LoadedItems T)) (count : Except E (Option Nat))
    (h : captured ≠ s.reloadCounter) :
    driverStep fmt s (.completeItemLoad captured missing result) = s ∧
    driverStep fmt s (.completeCountLoad captured count) = s := by
  constructor <;> simp [driverStep, h]

/-- Witness for C1 at a concrete stale completion. -/
theorem c1_witness :
    driverStep (fun e : String => e)
        ⟨CacheInner.mk ([] : List (ItemState Nat)) none, .ok none, 5⟩
        (.completeItemLoad 4 ⟨0, 1⟩ (.error "boom")) =
      ⟨CacheInner.mk [] none, .ok none, 5⟩ ∧
    driverStep (fun e : String => e)
        ⟨CacheInner.mk ([] : List (ItemState Nat)) none, .ok none, 5⟩
        (.completeCountLoad 4 (.ok (some 10))) =
      ⟨CacheInner.mk [] none, .ok none, 5⟩ :=
  c1_stale_completion_dropped (fun e => e) _ 4 ⟨0, 1⟩ (.error "boom")
    (.ok (some 10)) (by decide)

/-- C2 counterexample: with an empty item vector, item count `some 3` and
window `[5, 10)`, `missing_range` takes the early-return path and yields
`some [5, 10)`; index 5 belongs to the returned range although it is not
below the known item count 3, so the claim's clamping clause fails. -/
theorem c2_counterexample :
    (CacheInner.mk ([] : List (ItemState Nat)) (some 3)).missing_range
        ⟨5, 10⟩ = some ⟨5, 10⟩ ∧
    NatRange.contains ⟨5, 10⟩ 5 ∧ ¬ (5 < 3) := by
  refine ⟨by decide, by decide, by decide⟩

/-- C2 (amended): for every cache and window, a `None` answer of
`missing_range` means no index of the window is missing (a gap of the
window below the known item count), and a `Some R` answer contains every
missing index, starts exactly at the first gap of the window, ends no
later than the window end or one past a gap, and — whenever the window
start lies inside the allocated vector — is clamped by the known item
count (on the early-return path `window.start ≥ len` the window is
returned unclamped). -/
theorem c2_missing_range_sound (c : CacheInner T) (W : NatRange) :
    (c.missing_range W = none → ∀ i, ¬ c.IsMissing W i) ∧
    ∀ R, c.missing_range W = some R →
      (∀ i, c.IsMissing W i → R.contains i) ∧
      c.IsGap W R.start ∧
      (∀ i, c.IsGap W i → R.start ≤ i) ∧
      (R.stop ≤ W.stop ∨ ∃ i, c.IsGap W i ∧ R.stop ≤ i + 1) ∧
      (∀ n, c.itemCount = some n → W.start < c.items.length → R.stop ≤ n) := by
  refine ⟨missing_range_eq_none c W, fun R h => ?_⟩
  obtain ⟨_, h2, h3, h4, h5, h6⟩ := missing_range_eq_some c W R h
  exact ⟨h2, h3, h4, h5, h6⟩

/-- Witness for C2 at a concrete cache and window. -/
theorem c2_witness :
    ¬ (CacheInner.mk [ItemState.loaded 7] none).IsMissing ⟨0, 1⟩ 0 :=
  (c2_missing_range_sound (CacheInner.mk [ItemState.loaded 7] none)
    ⟨0, 1⟩).1 (by decide) 0

/-- C3: evaluation at the failing input.  On a cache of three loaded rows,
`write_loaded(Err("boom"), [1, 2))` turns ALL three rows into
`Error("boom")` — the `Err` loop of the source iterates over every row of
the cache instead of the scoped subrange, so indices 0 and 2 do not stay
untouched as the claim demands. -/
theorem c3_error_marking_not_scoped :
    (CacheInner.mk [ItemState.loaded 1, .loaded 2, .loaded 3]
        none).write_loaded (.error "boom") ⟨1, 2⟩ =
      CacheInner.mk [.error "boom", .error "boom", .error "boom"] none := by
  rfl

/-- C4: after a successful `write_loaded` whose payload length matches its
range, every index of the range reads back as the corresponding `Loaded`
value, and `missing_range` on that range subsequently reports nothing to
load. -/
theorem c4_round_trip (c : CacheInner T) (ys : List T) (rg req : NatRange)
    (hlen : ys.length = rg.stop - rg.start) :
    (∀ i y, ys[i]? = some y →
      (c.write_loaded (.ok ⟨ys, rg⟩) req).items[rg.start + i]? =
        some (.loaded y)) ∧
    (c.write_loaded (.ok ⟨ys, rg⟩) req).missing_range rg = none := by
  constructor
  · intro i y hy
    have hi : i < ys.length := by
      by_contra hge
      rw [List.getElem?_eq_none (by omega)] at hy
      exact absurd hy (by simp)
    have hfit : rg.start + ys.length ≤ max c.items.length rg.stop := by
      omega
    exact write_loaded_ok_getElem c ⟨ys, rg⟩ req i hi hfit y hy
  · by_cases hba : rg.stop ≤ rg.start
    · unfold CacheInner.missing_range
      rw [if_pos hba]
    cases hmr : (c.write_loaded (.ok ⟨ys, rg⟩) req).missing_range rg with
    | none => rfl
    | some R =>
      exfalso
      obtain ⟨hn1, hn2, hgapR, hn4, hn5, hn6⟩ :=
        missing_range_eq_some (c.write_loaded (.ok ⟨ys, rg⟩) req) rg R hmr
      clear hn1 hn2 hn4 hn5 hn6 hmr
      obtain ⟨⟨hR1, hR2⟩, hor⟩ := hgapR
      have hlen2 := write_loaded_ok_length c ⟨ys, rg⟩ req
      rcases hor with hlong | hph
      · simp only [hlen2] at hlong
        omega
      · have hiy : R.start - rg.start < ys.length := by omega
        have hfit : rg.start + ys.length ≤ max c.items.length rg.stop := by
          omega
        obtain ⟨y, hy⟩ : ∃ y, ys[R.start - rg.start]? = some y :=
          ⟨_, List.getElem?_eq_getElem hiy⟩
        have hread := write_loaded_ok_getElem c ⟨ys, rg⟩ req
          (R.start - rg.start) hiy hfit y hy
        rw [show rg.start + (R.start - rg.start) = R.start by omega] at hread
        rw [hread] at hph
        exact absurd hph (by simp)

/-- Witness for C4 at a concrete load of one item into an empty cache. -/
theorem c4_witness :
    ((CacheInner.mk ([] : List (ItemState Nat)) none).write_loaded
        (.ok ⟨[7], ⟨0, 1⟩⟩) ⟨0, 1⟩).items[(0 : Nat) + 0]? =
      some (.loaded 7) ∧
    ((CacheInner.mk ([] : List (ItemState Nat)) none).write_loaded
        (.ok ⟨[7], ⟨0, 1⟩⟩) ⟨0, 1⟩).missing_range ⟨0, 1⟩ = none :=
  ⟨(c4_round_trip (CacheInner.mk [] none) [7] ⟨0, 1⟩ ⟨0, 1⟩
      (by decide)).1 0 7 (by decide),
   (c4_round_trip (CacheInner.mk [] none) [7] ⟨0, 1⟩ ⟨0, 1⟩
      (by decide)).2⟩

/-- C5: with a chunk size `c > 0` the normalized `load_items` calls the
inner load exactly once with the outward-rounded range: its start is the
largest multiple of `c` not exceeding the requested start, its stop the
smallest multiple of `c` not below the requested stop; without a chunk
size the requested range is passed through unchanged. -/
theorem c5_chunk_alignment (inner : NatRange → α) (r : NatRange) (c : Nat)
    (hc : 0 < c) :
    load_items (some c) inner r = inner (correctedRange (some c) r) ∧
    (correctedRange (some c) r).start % c = 0 ∧
    (correctedRange (some c) r).start ≤ r.start ∧
    r.start < (correctedRange (some c) r).start + c ∧
    (correctedRange (some c) r).stop % c = 0 ∧
    r.stop ≤ (correctedRange (some c) r).stop ∧
    (correctedRange (some c) r).stop < r.stop + c ∧
    load_items none inner r = inner r := by
  refine ⟨rfl, ?_, ?_, ?_, ?_, ?_, ?_, rfl⟩
  · exact Nat.mul_mod_left _ _
  · exact Nat.div_mul_le_self _ _
  · exact div_mul_add_lt r.start c hc
  · exact Nat.mul_mod_left _ _
  · exact divCeil_mul_ge r.stop c hc
  · exact divCeil_mul_lt r.stop c hc

/-- Witness for C5 at chunk size 20 and range `[5, 10)`. -/
theorem c5_witness :
    0 < 20 ∧
    load_items (some 20) (fun x : NatRange => x) ⟨5, 10⟩ =
      correctedRange (some 20) ⟨5, 10⟩ :=
  ⟨by decide,
   (c5_chunk_alignment (fun x : NatRange => x) ⟨5, 10⟩ 20 (by decide)).1⟩

/-- C6: the paginated lift of `load_page` reports the actual range
`[p * PAGE_ITEM_COUNT, p * PAGE_ITEM_COUNT + k)` when page `p` yields `k`
items, and the driver, on a successful completion of the current
generation whose returned range ends before the requested missing range,
updates the cached item count to that returned end. -/
theorem c6_paginated_shape (loadPage : Nat → Q → Except E1 (List T))
    (pageItemCount : Nat) (range : NatRange) (q : Q) (p : Nat)
    (items : List T) (fmt : E → String) (s : DriverState T E)
    (captured : Nat) (missing : NatRange) (li : LoadedItems T)
    (hC : 0 < pageItemCount) (hstart : range.start = p * pageItemCount)
    (hpage : loadPage p q = .ok items)
    (hgen : captured = s.reloadCounter)
    (hend : li.range.stop < missing.stop) :
    paginatedLoadItemsInner loadPage pageItemCount range q =
      .ok ⟨items, ⟨p * pageItemCount, p * pageItemCount + items.length⟩⟩ ∧
    (driverStep fmt s
        (.completeItemLoad captured missing (.ok li))).cache.itemCount =
      some li.range.stop := by
  constructor
  · unfold paginatedLoadItemsInner
    rw [hstart, Nat.mul_div_cancel p hC, hpage]
    rfl
  · simp only [driverStep, if_pos hgen, write_loaded_itemCount]
    rw [if_pos hend]
    rfl

/-- Witness for C6: page 4 of 20 items per page returning 3 items, and a
driver completion signalling end-of-data at 87. -/
theorem c6_witness :
    paginatedLoadItemsInner
        (fun _ _ => (.ok [1, 2, 3] : Except String (List Nat))) 20
        ⟨80, 100⟩ () =
      .ok ⟨[1, 2, 3], ⟨4 * 20, 4 * 20 + 3⟩⟩ ∧
    (driverStep (fun e : String => e)
        ⟨CacheInner.mk ([] : List (ItemState Nat)) none, .ok none, 0⟩
        (.completeItemLoad 0 ⟨80, 100⟩
          (.ok ⟨[1, 2, 3], ⟨80, 87⟩⟩))).cache.itemCount =
      some 87 :=
  c6_paginated_shape (fun _ _ => .ok [1, 2, 3]) 20 ⟨80, 100⟩ () 4 [1, 2, 3]
    (fun e => e) ⟨CacheInner.mk [] none, .ok none, 0⟩ 0 ⟨80, 100⟩
    ⟨[1, 2, 3], ⟨80, 87⟩⟩ (by decide) (by decide) rfl rfl (by decide)

/-- C7: evaluation of the controls calculator at the failing inputs.  For
`(cp = 50, pc = 100, dpc = 5, mpc = 1)` the source yields start `[0, 1]`,
current `[49, 50, 51]`, end `[98, 99]` (the claim expects `[0]`,
`[48..52]`, `[99]`), and for `(cp = 2, pc = 100, dpc = 5, mpc = 1)` it
yields start `[0, 1, 2, 3]`, end `[98, 99]` (the claim expects `[0..4]`
and `[99]`); the separator outputs match the claim. -/
theorem c7_controls_eval :
    usePaginationControls 50 (some 100) 5 1 =
      ⟨[0, 1], [98, 99], [49, 50, 51], true, true⟩ ∧
    usePaginationControls 2 (some 100) 5 1 =
      ⟨[0, 1, 2, 3], [98, 99], [], false, true⟩ := by
  refine ⟨by decide, by decide⟩

/-- C8: the pagination hook derives `range_to_load` with start
`max(0, current_page - overscan) * items_per_page` and end
`(current_page + overscan) * items_per_page` (no `+ 1`), the end clamped
to the item count when it is known. -/
theorem c8_range_to_load (currentPage overscan itemsPerPage : Nat)
    (itemCount : Option Nat) :
    (rangeToLoad currentPage overscan itemsPerPage itemCount).start =
      (max ((currentPage : Int) - overscan) 0).toNat * itemsPerPage ∧
    (rangeToLoad currentPage overscan itemsPerPage itemCount).stop =
      match itemCount with
      | some n => min ((currentPage + overscan) * itemsPerPage) n
      | none => (currentPage + overscan) * itemsPerPage := by
  constructor
  · have h : (max ((currentPage : Int) - overscan) 0).toNat =
        currentPage - overscan := by omega
    simp only [rangeToLoad, h]
  · cases itemCount <;> rfl

/-- C9 counterexample: `remove_item(0)` on an initialized controller whose
cache vector is empty panics (`Vec::remove` with an out-of-range index),
modelled by the `none` result — it is not a log-and-no-op. -/
theorem c9_counterexample :
    CacheController.remove_item
      (some (CacheInner.mk ([] : List (ItemState Nat)) none)) 0 = none := by
  rfl

/-- C9 (amended): on an uninitialized CacheController, `update_item`,
`remove_item` and `insert_item` log and do nothing — the controller state
is unchanged and no panic occurs.  (On an initialized controller an
out-of-range index is not protected and panics, see the
counterexample.) -/
theorem c9_uninit_controller_noop (i : Nat) (v : T) :
    CacheController.update_item (none : CacheController T) i v = some none ∧
    CacheController.remove_item (none : CacheController T) i = some none ∧
    CacheController.insert_item (none : CacheController T) i v = some none :=
  ⟨rfl, rfl, rfl⟩

/-- C10: whenever `missing_range` returns a range, that range is non-empty,
so the driver never marks loading or calls the loader for an empty
range. -/
theorem c10_missing_range_nonempty (c : CacheInner T) (W R : NatRange)
    (h : c.missing_range W = some R) : R.start < R.stop :=
  (missing_range_eq_some c W R h).1

/-- Witness for C10 on the empty cache. -/
theorem c10_witness :
    (⟨5, 10⟩ : NatRange).start < (⟨5, 10⟩ : NatRange).stop :=
  c10_missing_range_nonempty (CacheInner.mk ([] : List (ItemState Nat)) none)
    ⟨5, 10⟩ ⟨5, 10⟩ (by decide)

end LeptosWindowing
